import Mathlib

/-!
Shallow embedding of selected functions of the sunpm-utils TypeScript
utility library, together with proofs about the behaviour its
specification describes.

Modelling conventions:
* JavaScript numbers are modelled as exact rationals (`ℚ`), or as
  integers (`ℤ`/`ℕ`) where the code only ever uses integral values
  (lengths, sizes, indices); float rounding is outside the model.
* Strings are Lean `String`s (wrappers around `List Char`).
* Arrays are Lean lists.
* An optional parameter is an `Option`; `none` stands for
  `undefined`/`null`.
-/

namespace SunpmUtils

/-- JS `Math.trunc` on a rational: rounds toward zero. -/
def jsTrunc (q : ℚ) : ℤ := if 0 ≤ q then ⌊q⌋ else ⌈q⌉

/-- JS remainder `a % b` on rationals: `a - b * trunc (a / b)`. -/
def jsMod (a b : ℚ) : ℚ := a - b * (jsTrunc (a / b) : ℚ)

/-- JS `Math.round`: nearest integer, ties toward `+∞`. -/
def jsRound (q : ℚ) : ℤ := ⌊q + 1 / 2⌋

theorem jsTrunc_of_nonneg {q : ℚ} (h : 0 ≤ q) : jsTrunc q = ⌊q⌋ := if_pos h

theorem jsMod_nonneg {a b : ℚ} (ha : 0 ≤ a) (hb : 0 < b) : 0 ≤ jsMod a b := by
  have hq : (0 : ℚ) ≤ a / b := div_nonneg ha hb.le
  have hfl : (⌊a / b⌋ : ℚ) ≤ a / b := Int.floor_le _
  have : b * (⌊a / b⌋ : ℚ) ≤ a := by
    calc b * (⌊a / b⌋ : ℚ) ≤ b * (a / b) := by
          exact mul_le_mul_of_nonneg_left hfl hb.le
      _ = a := by field_simp
  simpa [jsMod, jsTrunc_of_nonneg hq] using this

/-! ### `clamp` — `src/packages/number/index.ts`

```ts
export function clamp(num: number, min: number, max: number): number {
  return Math.min(Math.max(num, min), max)
}
```
(The `min`/`max` parameters are renamed `minVal`/`maxVal` because `min`
and `max` are the lattice operations in Lean.) -/

def clamp (num minVal maxVal : ℚ) : ℚ := min (max num minVal) maxVal

/-! ### `chunk` — `src/packages/array/index.ts`

```ts
export function chunk<T>(array: T[], size: number): T[][] {
  if (size <= 0)
    return [array]
  const result: T[][] = []
  for (let i = 0; i < array.length; i += size) {
    result.push(array.slice(i, i + size))
  }
  return result
}
```
The loop takes successive slices `[i, i + size)`.  It is embedded as a
structural recursion over the yet-unsliced suffix; `fuel` only bounds
the recursion depth, and any `fuel ≥ array.length` reproduces the loop
exactly when `size ≥ 1` (each iteration consumes at least one element). -/

def chunkLoop {α : Type u} (size : ℕ) : ℕ → List α → List (List α)
  | _, [] => []
  | 0, _ :: _ => []
  | fuel + 1, a :: rest => (a :: rest).take size :: chunkLoop size fuel (rest.drop (size - 1))

def chunk {α : Type u} (array : List α) (size : ℤ) : List (List α) :=
  if size ≤ 0 then [array] else chunkLoop size.toNat array.length array

theorem chunkLoop_join {α : Type u} (size : ℕ) (hsize : 1 ≤ size) :
    ∀ (fuel : ℕ) (l : List α), l.length ≤ fuel → (chunkLoop size fuel l).flatten = l := by
  intro fuel
  induction fuel with
  | zero =>
    intro l hl
    cases l with
    | nil => rfl
    | cons a rest => simp at hl
  | succ n ih =>
    intro l hl
    cases l with
    | nil => rfl
    | cons a rest =>
      obtain ⟨k, hk⟩ := Nat.exists_eq_add_of_le hsize
      have hdrop : rest.drop (size - 1) = (a :: rest).drop size := by
        subst hk
        simp [Nat.add_comm 1 k, List.drop_succ_cons]
      have hlen : (rest.drop (size - 1)).length ≤ n := by
        have h1 : (rest.drop (size - 1)).length ≤ rest.length := by
          simp
        have h2 : rest.length ≤ n := Nat.le_of_succ_le_succ (by simpa using hl)
        exact h1.trans h2
      calc (chunkLoop size (n + 1) (a :: rest)).flatten
          = (a :: rest).take size ++ (chunkLoop size n (rest.drop (size - 1))).flatten := by
            simp [chunkLoop]
        _ = (a :: rest).take size ++ rest.drop (size - 1) := by rw [ih _ hlen]
        _ = (a :: rest).take size ++ (a :: rest).drop size := by rw [hdrop]
        _ = a :: rest := List.take_append_drop size (a :: rest)

/-! ### `truncate` — string package (`truncate(str, length, ellipsis)`)

```ts
export function truncate(str: string, length: number = 50, ellipsis: string = '...'): string {
  if (str.length <= length)
    return str
  const truncatedLength = length - ellipsis.length
  return str.substring(0, truncatedLength) + ellipsis
}
```
The defaults (`length = 50`, `ellipsis = '...'`) are supplied explicitly
by callers of the model.  JS `substring(0, n)` clamps a negative `n` to
`0`, which `Int.toNat` reproduces. -/

def truncate (str : String) (length : ℤ) (ellipsis : String) : String :=
  if (str.length : ℤ) ≤ length then str
  else String.mk (str.toList.take (length - (ellipsis.length : ℤ)).toNat) ++ ellipsis

/-- **C5.** `truncate(str, length, ellipsis)`: if `str.length <= length` the
string is returned unchanged; otherwise the first
`length - ellipsis.length` characters of `str` concatenated with
`ellipsis` are returned. -/
theorem truncate_spec (str : String) (length : ℤ) (ellipsis : String) :
    ((str.length : ℤ) ≤ length → truncate str length ellipsis = str) ∧
      (length < (str.length : ℤ) →
        truncate str length ellipsis =
          String.mk (str.toList.take (length - (ellipsis.length : ℤ)).toNat) ++ ellipsis) := by
  constructor
  · intro h
    simp [truncate, h]
  · intro h
    simp [truncate, not_le.mpr h]

/-- **C5 witness.** `truncate("12345678901234567890", 10)` (with the default
ellipsis `"..."`) keeps the first `10 - 3 = 7` characters and appends the
ellipsis, giving `"1234567..."`. -/
theorem truncate_spec_witness :
    truncate "12345678901234567890" 10 "..." = "1234567..." :=
  ((truncate_spec "12345678901234567890" 10 "...").2 (by decide)).trans (by decide)

/-- **C6.** For every array `arr` and every integer `n > 0`, the
concatenation of the sub-arrays returned by `chunk(arr, n)`, in order,
is `arr`. -/
theorem chunk_flatten_eq {α : Type u} (arr : List α) (n : ℤ) (h : 0 < n) :
    (chunk arr n).flatten = arr := by
  have hn : ¬ n ≤ 0 := not_le.mpr h
  have hsize : 1 ≤ n.toNat := by omega
  simp only [chunk, if_neg hn]
  exact chunkLoop_join n.toNat hsize arr.length arr le_rfl

/-- **C6 witness.** `chunk([1,...,10], 3)` flattens back to the input array. -/
theorem chunk_flatten_eq_witness :
    (0 : ℤ) < 3 ∧
      (chunk [1, 2, 3, 4, 5, 6, 7, 8, 9, 10] (3 : ℤ)).flatten
        = [1, 2, 3, 4, 5, 6, 7, 8, 9, 10] :=
  ⟨by norm_num, chunk_flatten_eq [1, 2, 3, 4, 5, 6, 7, 8, 9, 10] 3 (by norm_num)⟩

/-- **C7.** For every array and every size `≤ 0`, `chunk(array, size)`
returns the single-element array holding the whole input (the function is
total, so no error is raised). -/
theorem chunk_nonpos {α : Type u} (array : List α) (size : ℤ) (h : size ≤ 0) :
    chunk array size = [array] := by
  simp [chunk, h]

/-- **C7 witness.** `chunk([1,2,3], 0) = [[1,2,3]]`. -/
theorem chunk_nonpos_witness : chunk ([1, 2, 3] : List ℕ) 0 = [[1, 2, 3]] :=
  chunk_nonpos [1, 2, 3] 0 (by norm_num)

/-- **C10.** `clamp(num, min, max)` is always `≤ max`; when the bounds are
inverted (`min > max`) it returns `max` regardless of `num`, and that
result is `< min`, so the result is not `≥ min` in that case. -/
theorem clamp_le_max (num minVal maxVal : ℚ) :
    clamp num minVal maxVal ≤ maxVal ∧
      (maxVal < minVal →
        clamp num minVal maxVal = maxVal ∧ clamp num minVal maxVal < minVal) := by
  refine ⟨min_le_right _ _, fun hinv => ?_⟩
  have hmax : maxVal ≤ max num minVal := le_trans hinv.le (le_max_right _ _)
  have heq : clamp num minVal maxVal = maxVal := min_eq_right hmax
  exact ⟨heq, by rw [heq]; exact hinv⟩

/-- **C10 witness.** With inverted bounds `min = 10 > 0 = max`,
`clamp(5, 10, 0)` is `0 = max`, which is below `min`. -/
theorem clamp_le_max_witness :
    clamp 5 10 0 ≤ 0 ∧ clamp 5 10 0 = 0 ∧ clamp 5 10 0 < 10 :=
  ⟨(clamp_le_max 5 10 0).1, (clamp_le_max 5 10 0).2 (by norm_num)⟩

/-! ### JS string primitives

`String.trim`, `String.prototype.includes`, `padStart` and global
regex replacement (for patterns without metacharacters, i.e. literal
substrings) are modelled over the character list of a `String`. -/

/-- The characters removed by JS `String.prototype.trim` (WhiteSpace and
LineTerminator code points). -/
def jsWhitespaceChar (c : Char) : Bool :=
  c = ' ' || c = '\t' || c = '\n' || c = '\r' ||
    c = Char.ofNat 0x0B || c = Char.ofNat 0x0C || c = Char.ofNat 0xA0 ||
    c = Char.ofNat 0x1680 || (0x2000 ≤ c.toNat && c.toNat ≤ 0x200A) ||
    c = Char.ofNat 0x2028 || c = Char.ofNat 0x2029 || c = Char.ofNat 0x202F ||
    c = Char.ofNat 0x205F || c = Char.ofNat 0x3000 || c = Char.ofNat 0xFEFF

/-- JS `str.trim()`: strip leading and trailing whitespace. -/
def jsTrim (s : String) : String :=
  String.mk (((s.data.dropWhile jsWhitespaceChar).reverse.dropWhile jsWhitespaceChar).reverse)

/-- JS `str.includes(pat)` on character lists. -/
def containsTok : List Char → List Char → Bool
  | [], pat => pat.isEmpty
  | s@(_ :: rest), pat => pat.isPrefixOf s || containsTok rest pat

/-- JS `str.padStart(n, c)` on character lists. -/
def padStartL (s : List Char) (n : ℕ) (c : Char) : List Char :=
  List.replicate (n - s.length) c ++ s

/-- Loop of JS `str.replace(/pat/g, rep)` for a literal pattern `pat`:
scan left to right, replacing non-overlapping occurrences, never
rescanning the replacement.  `fuel` only bounds the recursion; any
`fuel ≥ s.length` reproduces the scan for a non-empty pattern. -/
def replaceAllLoop (pat rep : List Char) : ℕ → List Char → List Char
  | _, [] => []
  | 0, s => s
  | fuel + 1, c :: rest =>
    if pat.isPrefixOf (c :: rest) && !pat.isEmpty then
      rep ++ replaceAllLoop pat rep fuel (rest.drop (pat.length - 1))
    else
      c :: replaceAllLoop pat rep fuel rest

/-- JS `s.replace(new RegExp(pat, 'g'), rep)` for a literal pattern. -/
def replaceAll (s pat rep : String) : String :=
  String.mk (replaceAllLoop pat.data rep.data s.length s.data)

/-- JS `Number.prototype.toString` for an integral value. -/
def intToString (i : ℤ) : String :=
  if i < 0 then String.mk ('-' :: Nat.toDigits 10 i.natAbs)
  else String.mk (Nat.toDigits 10 i.toNat)

theorem replaceAllLoop_of_not_contains (pat rep : List Char) :
    ∀ (fuel : ℕ) (s : List Char), containsTok s pat = false →
      replaceAllLoop pat rep fuel s = s := by
  intro fuel
  induction fuel with
  | zero =>
    intro s _
    cases s <;> rfl
  | succ n ih =>
    intro s hs
    cases s with
    | nil => rfl
    | cons c rest =>
      simp only [containsTok, Bool.or_eq_false_iff] at hs
      simp [replaceAllLoop, hs.1, ih rest hs.2]

/-- `replace` with a pattern that does not occur leaves the string
unchanged (the JS code guards replacement behind `includes`, the spec
does not; this lemma bridges the two). -/
theorem replaceAll_of_not_contains (s pat rep : String)
    (h : containsTok s.data pat.data = false) : replaceAll s pat rep = s := by
  simp only [replaceAll, replaceAllLoop_of_not_contains pat.data rep.data s.length s.data h]

/-! ### `formatDuration` — date module

```ts
export function formatDuration(timestamp: number, format?: string): string | number {
  const duration = Math.abs(timestamp)
  const SECOND = 1000
  const MINUTE = 60 * SECOND
  const HOUR = 60 * MINUTE
  const DAY = 24 * HOUR
  const MONTH = 30 * DAY
  const YEAR = 365 * DAY
  const years = Math.floor(duration / YEAR)
  const months = Math.floor((duration % YEAR) / MONTH)
  const days = Math.floor((duration % MONTH) / DAY)
  const hours = Math.floor((duration % DAY) / HOUR)
  const minutes = Math.floor((duration % HOUR) / MINUTE)
  const seconds = Math.floor((duration % MINUTE) / SECOND)
  if (format) { ... }          -- single-unit / composite branches below
  ...                          -- smart format branch below
}
```
The return type `string | number` is the sum `DurationResult`. -/

def SECOND : ℚ := 1000

def MINUTE : ℚ := 60 * SECOND

def HOUR : ℚ := 60 * MINUTE

def DAY : ℚ := 24 * HOUR

def MONTH : ℚ := 30 * DAY

def YEAR : ℚ := 365 * DAY

/-- The six decomposed components `years months days hours minutes seconds`. -/
structure Components where
  years : ℤ
  months : ℤ
  days : ℤ
  hours : ℤ
  minutes : ℤ
  seconds : ℤ

/-- The successive floored remainders of the duration. -/
def components (duration : ℚ) : Components :=
  ⟨⌊duration / YEAR⌋, ⌊jsMod duration YEAR / MONTH⌋, ⌊jsMod duration MONTH / DAY⌋,
    ⌊jsMod duration DAY / HOUR⌋, ⌊jsMod duration HOUR / MINUTE⌋, ⌊jsMod duration MINUTE / SECOND⌋⟩

/-- The `unitMap` record of the source: each token maps to the pair
`(total, current)` with the exact total in that unit and the decomposed
remainder. -/
def unitEntries (duration : ℚ) (c : Components) : List (String × ℚ × ℤ) :=
  [("YY", duration / YEAR, c.years), ("Y", duration / YEAR, c.years),
   ("MM", duration / MONTH, c.months), ("M", duration / MONTH, c.months),
   ("DD", duration / DAY, c.days), ("D", duration / DAY, c.days),
   ("HH", duration / HOUR, c.hours), ("H", duration / HOUR, c.hours),
   ("mm", duration / MINUTE, c.minutes), ("m", duration / MINUTE, c.minutes),
   ("ss", duration / SECOND, c.seconds), ("s", duration / SECOND, c.seconds)]

/-- The outcome of the JS property read `unitMap[token]` on the plain
object literal: an own entry, a truthy member inherited from
`Object.prototype` (a method, or the `__proto__` object), or the falsy
`undefined`. -/
inductive PropLookup where
  | entry (total : ℚ) (current : ℤ)
  | inherited
  | absent

/-- The property names every plain object literal inherits from
`Object.prototype`; reading one of them on `unitMap` yields a truthy
value even though it is not an own key. -/
def objectPrototypeKeys : List String :=
  ["constructor", "hasOwnProperty", "isPrototypeOf", "propertyIsEnumerable",
   "toLocaleString", "toString", "valueOf", "__proto__",
   "__defineGetter__", "__defineSetter__", "__lookupGetter__", "__lookupSetter__"]

/-- `unitMap[token]`: the own entry when `token` is one of the twelve
unit keys, a truthy inherited member for an `Object.prototype` property
name, `undefined` otherwise. -/
def unitMap (duration : ℚ) (c : Components) (token : String) : PropLookup :=
  match (unitEntries duration c).lookup token with
  | some (total, current) => .entry total current
  | none => if token ∈ objectPrototypeKeys then .inherited else .absent

/-- The replacement order of the composite branch
(`longest-match-first`). -/
def formatTokens : List String :=
  ["YY", "MM", "DD", "HH", "mm", "ss", "Y", "M", "D", "H", "m", "s"]

/-- One iteration of the composite-format loop:
`if (result.includes(token) && unitMap[token]) \x7b ... replace ... \x7d`. -/
def applyToken (duration : ℚ) (c : Components) (result token : String) : String :=
  if containsTok result.data token.data then
    match unitMap duration c token with
    | .entry _ current =>
      replaceAll result token
        (String.mk (padStartL (intToString current).data token.length '0'))
    -- The loop only ever looks up the twelve own keys of `formatTokens`,
    -- which shadow the prototype, so this arm is unreachable (in JS it
    -- would throw on `undefined.toString()`).
    | .inherited => result
    | .absent => result
  else result

/-- The composite branch: fold the replacement over all format tokens. -/
def compositeReplace (duration : ℚ) (c : Components) (format : String) : String :=
  formatTokens.foldl (applyToken duration c) format

/-- The smart branch: list the non-zero units, and the seconds when
nothing else was listed. -/
def smartFormat (c : Components) : String :=
  let parts : List String :=
    (if 0 < c.years then [intToString c.years ++ "年"] else [])
      ++ (if 0 < c.months then [intToString c.months ++ "个月"] else [])
      ++ (if 0 < c.days then [intToString c.days ++ "天"] else [])
      ++ (if 0 < c.hours then [intToString c.hours ++ "小时"] else [])
      ++ (if 0 < c.minutes then [intToString c.minutes ++ "分钟"] else [])
  String.join
    (if 0 < c.seconds ∨ parts = [] then parts ++ [intToString c.seconds ++ "秒"] else parts)

/-- The `string | number` result of `formatDuration`.  `nan` is the
number `NaN` (ℚ has no `NaN` value): it arises when the trimmed format
names an inherited `Object.prototype` member, so the truthy lookup takes
the single-unit branch, `.total` is `undefined`, and
`Math.round(undefined * 1000) / 1000` is `NaN`. -/
inductive DurationResult where
  | num (value : ℚ)
  | nan
  | str (value : String)
deriving DecidableEq

/-- `formatDuration(timestamp, format?)`.  `if (format)` takes the
formatted branches only for a supplied, non-empty format string. -/
def formatDuration (timestamp : ℚ) (format : Option String) : DurationResult :=
  let duration := |timestamp|
  let c := components duration
  match format with
  | some f =>
    if f = "" then .str (smartFormat c)
    else
      match unitMap duration c (jsTrim f) with
      | .entry total _ => .num ((jsRound (total * 1000) : ℚ) / 1000)
      | .inherited => .nan
      | .absent => .str (compositeReplace duration c f)
  | none => .str (smartFormat c)

theorem components_nonneg (duration : ℚ) (h : 0 ≤ duration) :
    0 ≤ (components duration).years ∧ 0 ≤ (components duration).months ∧
      0 ≤ (components duration).days ∧ 0 ≤ (components duration).hours ∧
      0 ≤ (components duration).minutes ∧ 0 ≤ (components duration).seconds := by
  have hSECOND : (0 : ℚ) < SECOND := by norm_num [SECOND]
  have hMINUTE : (0 : ℚ) < MINUTE := by norm_num [MINUTE, SECOND]
  have hHOUR : (0 : ℚ) < HOUR := by norm_num [HOUR, MINUTE, SECOND]
  have hDAY : (0 : ℚ) < DAY := by norm_num [DAY, HOUR, MINUTE, SECOND]
  have hMONTH : (0 : ℚ) < MONTH := by norm_num [MONTH, DAY, HOUR, MINUTE, SECOND]
  have hYEAR : (0 : ℚ) < YEAR := by norm_num [YEAR, DAY, HOUR, MINUTE, SECOND]
  refine ⟨?_, ?_, ?_, ?_, ?_, ?_⟩ <;>
    exact Int.floor_nonneg.mpr (div_nonneg (by first
      | exact h
      | exact jsMod_nonneg h (by assumption)) (by positivity))

/-- Unfolding `formatDuration` for a supplied, non-empty format. -/
theorem formatDuration_format_eq (d : ℚ) (f : String) (hne : f ≠ "") :
    formatDuration d (some f) =
      (match unitMap |d| (components |d|) (jsTrim f) with
       | .entry total _ => .num ((jsRound (total * 1000) : ℚ) / 1000)
       | .inherited => .nan
       | .absent => .str (compositeReplace |d| (components |d|) f)) := by
  simp [formatDuration, hne]

/-- **C4.** The sign of the input is ignored: `formatDuration(-d, fmt)`
equals `formatDuration(d, fmt)` for every duration and every (optional)
format, because the input is replaced by its absolute value before any
computation. -/
theorem formatDuration_abs_sign (d : ℚ) (format : Option String) :
    formatDuration (-d) format = formatDuration d format := by
  simp only [formatDuration, abs_neg]

/-- The twelve single-unit tokens paired with the unit sizes the spec
states, in milliseconds: second=1000ms, minute=60s, hour=60m, day=24h,
month=30d, year=365d. -/
def specUnitSizes : List (String × ℚ) :=
  [("YY", 365 * 24 * 60 * 60 * 1000), ("Y", 365 * 24 * 60 * 60 * 1000),
   ("MM", 30 * 24 * 60 * 60 * 1000), ("M", 30 * 24 * 60 * 60 * 1000),
   ("DD", 24 * 60 * 60 * 1000), ("D", 24 * 60 * 60 * 1000),
   ("HH", 60 * 60 * 1000), ("H", 60 * 60 * 1000),
   ("mm", 60 * 1000), ("m", 60 * 1000),
   ("ss", 1000), ("s", 1000)]

/-- **C1.** For every duration `d` and every format string whose trimmed
form is exactly one of the twelve unit tokens, `formatDuration(d, format)`
returns the number `|d|` divided by that token's fixed unit size — a
true, non-floored division — rounded to 3 decimal places (ties toward
`+∞`, as `Math.round`). -/
theorem formatDuration_single_unit (d : ℚ) (format token : String) (u : ℚ)
    (hmem : (token, u) ∈ specUnitSizes) (htrim : jsTrim format = token) :
    formatDuration d (some format) =
      .num ((⌊|d| / u * 1000 + 1 / 2⌋ : ℚ) / 1000) := by
  have hne : format ≠ "" := by
    intro hf
    subst hf
    rw [show jsTrim "" = "" from rfl] at htrim
    subst htrim
    simp [specUnitSizes, Prod.ext_iff] at hmem
  simp only [specUnitSizes, List.mem_cons, List.not_mem_nil, or_false, Prod.ext_iff] at hmem
  rcases hmem with h | h | h | h | h | h | h | h | h | h | h | h <;> obtain ⟨rfl, rfl⟩ := h <;>
    (rw [formatDuration_format_eq d format hne, htrim]
     simp [unitMap, unitEntries, List.lookup, jsRound]
     norm_num [YEAR, MONTH, DAY, HOUR, MINUTE, SECOND])

/-- **C1 witness.** `formatDuration(3661000, "HH")` is the total number of
hours `3661000 / 3600000` rounded to 3 decimals, i.e. `1.017`. -/
theorem formatDuration_single_unit_witness :
    formatDuration 3661000 (some "HH") =
      .num ((⌊|(3661000 : ℚ)| / (60 * 60 * 1000) * 1000 + 1 / 2⌋ : ℚ) / 1000) :=
  formatDuration_single_unit 3661000 "HH" "HH" (60 * 60 * 1000) (by simp [specUnitSizes])
    (by decide)

theorem pos_iff_ne_of_nonneg {x : ℤ} (hx : 0 ≤ x) : 0 < x ↔ x ≠ 0 := by omega

/-- The smart format the spec describes: list exactly the units of the
fixed decomposition of `|d|` whose value is non-zero, in descending unit
order (year→month→day→hour→minute→second), and include the seconds part
whenever every other unit is zero — so a zero duration renders as the
zero-seconds string. -/
def specSmartFormat (d : ℚ) : String :=
  let c := components |d|
  String.join
    ((if c.years ≠ 0 then [intToString c.years ++ "年"] else [])
      ++ (if c.months ≠ 0 then [intToString c.months ++ "个月"] else [])
      ++ (if c.days ≠ 0 then [intToString c.days ++ "天"] else [])
      ++ (if c.hours ≠ 0 then [intToString c.hours ++ "小时"] else [])
      ++ (if c.minutes ≠ 0 then [intToString c.minutes ++ "分钟"] else [])
      ++ (if c.seconds ≠ 0 ∨
            (c.years = 0 ∧ c.months = 0 ∧ c.days = 0 ∧ c.hours = 0 ∧ c.minutes = 0)
          then [intToString c.seconds ++ "秒"] else []))

theorem smartFormat_eq_spec (d : ℚ) :
    smartFormat (components |d|) = specSmartFormat d := by
  obtain ⟨hy, hmo, hd2, hh, hmi, hs⟩ := components_nonneg |d| (abs_nonneg d)
  simp only [smartFormat, specSmartFormat]
  generalize hgen : components |d| = c at hy hmo hd2 hh hmi hs ⊢
  simp only [pos_iff_ne_of_nonneg hy, pos_iff_ne_of_nonneg hmo, pos_iff_ne_of_nonneg hd2,
    pos_iff_ne_of_nonneg hh, pos_iff_ne_of_nonneg hmi, pos_iff_ne_of_nonneg hs]
  rcases em (c.years = 0) with h1 | h1 <;> rcases em (c.months = 0) with h2 | h2 <;>
    rcases em (c.days = 0) with h3 | h3 <;> rcases em (c.hours = 0) with h4 | h4 <;>
      rcases em (c.minutes = 0) with h5 | h5 <;> rcases em (c.seconds = 0) with h6 | h6 <;>
        simp [h1, h2, h3, h4, h5, h6]

/-- **C3.** With no format argument, `formatDuration(d)` renders exactly
the non-zero units of the fixed decomposition of `|d|`, in descending
unit order, including the seconds part whenever every other unit is
zero; in particular a zero duration renders as the zero-seconds string. -/
theorem formatDuration_no_format (d : ℚ) :
    formatDuration d none = .str (specSmartFormat d) ∧
      formatDuration 0 none = .str "0秒" := by
  have hall : ∀ x : ℚ, formatDuration x none = .str (specSmartFormat x) := by
    intro x
    simp only [formatDuration]
    exact congrArg DurationResult.str (smartFormat_eq_spec x)
  refine ⟨hall d, (hall 0).trans ?_⟩
  have hzero : components |(0 : ℚ)| = ⟨0, 0, 0, 0, 0, 0⟩ := by
    norm_num [components, jsMod, jsTrunc, YEAR, MONTH, DAY, HOUR, MINUTE, SECOND]
  simp only [specSmartFormat, hzero]
  norm_num [intToString]
  decide

/-- The twelve single-unit tokens recognized by `unitMap`. -/
def unitTokens : List String :=
  ["YY", "Y", "MM", "M", "DD", "D", "HH", "H", "mm", "m", "ss", "s"]

theorem unitMap_eq_absent (duration : ℚ) (c : Components) (t : String)
    (h : t ∉ unitTokens) (hp : t ∉ objectPrototypeKeys) : unitMap duration c t = .absent := by
  simp only [unitTokens, List.mem_cons, List.not_mem_nil, or_false, not_or] at h
  obtain ⟨h1, h2, h3, h4, h5, h6, h7, h8, h9, h10, h11, h12⟩ := h
  simp [unitMap, unitEntries, List.lookup, hp,
    beq_eq_false_iff_ne.mpr h1, beq_eq_false_iff_ne.mpr h2, beq_eq_false_iff_ne.mpr h3,
    beq_eq_false_iff_ne.mpr h4, beq_eq_false_iff_ne.mpr h5, beq_eq_false_iff_ne.mpr h6,
    beq_eq_false_iff_ne.mpr h7, beq_eq_false_iff_ne.mpr h8, beq_eq_false_iff_ne.mpr h9,
    beq_eq_false_iff_ne.mpr h10, beq_eq_false_iff_ne.mpr h11, beq_eq_false_iff_ne.mpr h12]

/-- The component substituted for a composite token: the decomposed
floored-remainder value of the unit the token names. -/
def specTokenValue (c : Components) (token : String) : ℤ :=
  if token = "YY" ∨ token = "Y" then c.years
  else if token = "MM" ∨ token = "M" then c.months
  else if token = "DD" ∨ token = "D" then c.days
  else if token = "HH" ∨ token = "H" then c.hours
  else if token = "mm" ∨ token = "m" then c.minutes
  else c.seconds

/-- The composite template substitution the spec describes: for every
recognized token, longest first (`YY,MM,DD,HH,mm,ss,Y,M,D,H,m,s`),
replace every occurrence by the decomposed remainder component of `|d|`,
zero-padded to the token's character length. -/
def specCompositeFormat (d : ℚ) (format : String) : String :=
  formatTokens.foldl
    (fun result token =>
      replaceAll result token
        (String.mk (padStartL (intToString (specTokenValue (components |d|) token)).data
          token.length '0')))
    format

theorem applyToken_eq_spec (duration : ℚ) (c : Components) (acc token : String)
    (htok : token ∈ formatTokens) :
    applyToken duration c acc token =
      replaceAll acc token
        (String.mk (padStartL (intToString (specTokenValue c token)).data token.length '0')) := by
  fin_cases htok <;>
    (simp only [applyToken]
     split
     · simp [unitMap, unitEntries, List.lookup, specTokenValue]
     · rename_i hcf
       rw [replaceAll_of_not_contains _ _ _ (by simpa using hcf)])

/-- **C2 (amended).** For every duration `d` and every supplied
*non-empty* format string whose trimmed form is neither a single unit
token nor a property name inherited from `Object.prototype`,
`formatDuration(d, format)` returns the format string with every
occurrence of each recognized token substring, longest-match-first in
the order `YY,MM,DD,HH,mm,ss,Y,M,D,H,m,s`, replaced by the
floored-remainder component of `|d|` zero-padded to the token's length.
(An inherited name such as `toString` makes `unitMap[trimmedFormat]`
truthy, so the single-unit branch runs and returns `NaN`.) -/
theorem formatDuration_composite (d : ℚ) (format : String)
    (hne : format ≠ "") (htok : jsTrim format ∉ unitTokens)
    (hproto : jsTrim format ∉ objectPrototypeKeys) :
    formatDuration d (some format) = .str (specCompositeFormat d format) := by
  rw [formatDuration_format_eq d format hne, unitMap_eq_absent _ _ _ htok hproto]
  refine congrArg DurationResult.str ?_
  simp only [compositeReplace, specCompositeFormat]
  refine List.foldl_ext _ _ _ ?_
  intro acc t ht
  exact applyToken_eq_spec |d| (components |d|) acc t ht

/-- **C2 counterexample.** The claim as stated covers every supplied
format string that is not a single unit token, but it fails twice on the
code.  The empty string is falsy, so `if (format)` takes the no-format
branch: at `d = 0`, `format = ""` the composite substitution gives `""`
while `formatDuration` returns the smart string `"0秒"`.  And a format
trimming to an inherited `Object.prototype` name makes
`unitMap[trimmedFormat]` truthy, so `formatDuration(0, "toString")`
takes the single-unit branch and returns the number `NaN`, not the
composite string `"toString"`. -/
theorem formatDuration_composite_counterexample :
    (formatDuration 0 (some "") = .str "0秒" ∧
      formatDuration 0 (some "") ≠ .str (specCompositeFormat 0 "")) ∧
      (formatDuration 0 (some "toString") = .nan ∧
        formatDuration 0 (some "toString") ≠ .str (specCompositeFormat 0 "toString")) := by
  have hzero : components |(0 : ℚ)| = ⟨0, 0, 0, 0, 0, 0⟩ := by
    norm_num [components, jsMod, jsTrunc, YEAR, MONTH, DAY, HOUR, MINUTE, SECOND]
  have h1 : formatDuration 0 (some "") = .str (smartFormat (components |(0 : ℚ)|)) := by
    simp [formatDuration]
  have h2 : specCompositeFormat 0 "" = "" := rfl
  have h3 : formatDuration 0 (some "toString") = .nan := by decide
  refine ⟨⟨?_, ?_⟩, h3, ?_⟩
  · rw [h1, hzero]
    decide
  · rw [h1, hzero, h2]
    decide
  · rw [h3]
    decide

/-- **C2 witness.** `formatDuration(3661000, "HH:mm:ss")` substitutes the
decomposed components `hours = minutes = seconds = 1`, zero-padded to
width 2, giving `"01:01:01"`. -/
theorem formatDuration_composite_witness :
    formatDuration 3661000 (some "HH:mm:ss") = .str (specCompositeFormat 3661000 "HH:mm:ss") ∧
      formatDuration 3661000 (some "HH:mm:ss") = .str "01:01:01" := by
  have h := formatDuration_composite 3661000 "HH:mm:ss" (by decide) (by decide) (by decide)
  have hcomp : components |(3661000 : ℚ)| = ⟨0, 0, 0, 1, 1, 1⟩ := by
    norm_num [components, jsMod, jsTrunc, YEAR, MONTH, DAY, HOUR, MINUTE, SECOND,
      Components.mk.injEq]
  refine ⟨h, h.trans ?_⟩
  simp only [specCompositeFormat, hcomp]
  decide

/-! ### `parseJsonStr` — string package

```ts
export function parseJsonStr<T = any>(str?: string | null, defaultValue?: T): T | string | Record<string, any> {
  if (!str) {
    return defaultValue !== undefined ? defaultValue : {}
  }
  if (!isString(str)) { ... }        -- unreachable for string|null|undefined input
  const trimmedStr = str.trim()
  const isLikelyJson = (
    (trimmedStr.startsWith('\x7b') && trimmedStr.endsWith('\x7d'))
    || (trimmedStr.startsWith('[') && trimmedStr.endsWith(']'))
    || (trimmedStr.startsWith('"') && trimmedStr.endsWith('"'))
    || /^-?\d+(?:\.\d+)?(?:e[+-]?\d+)?$/i.test(trimmedStr)
    || ['true', 'false', 'null'].includes(trimmedStr)
  )
  if (!isLikelyJson) {
    return defaultValue !== undefined ? defaultValue : str
  }
  try { return JSON.parse(trimmedStr) as T }
  catch { return defaultValue !== undefined ? defaultValue : str }
}
```
`JSON.parse` is a host primitive; it is passed in as an oracle
`jsonParse : String → Option J`, `none` meaning the parse throws. -/

def isDigitCh (c : Char) : Bool := '0' ≤ c && c ≤ '9'

/-- The anchored regex `^-?\d+(?:\.\d+)?(?:e[+-]?\d+)?$` with the `i`
flag (so `e` or `E`).  Greedy digit runs are exact here because each
digit run is followed by a non-digit alternative or the end. -/
def numericLiteral (cs : List Char) : Bool :=
  let cs1 := match cs with
    | '-' :: rest => rest
    | _ => cs
  if (cs1.takeWhile isDigitCh).isEmpty then false
  else
    let afterInt := cs1.dropWhile isDigitCh
    let afterFrac : Option (List Char) :=
      match afterInt with
      | '.' :: r =>
        if (r.takeWhile isDigitCh).isEmpty then none
        else some (r.dropWhile isDigitCh)
      | _ => some afterInt
    match afterFrac with
    | none => false
    | some r =>
      match r with
      | [] => true
      | e :: r2 =>
        if e = 'e' ∨ e = 'E' then
          let r3 := match r2 with
            | '+' :: r4 => r4
            | '-' :: r4 => r4
            | _ => r2
          !(r3.takeWhile isDigitCh).isEmpty && (r3.dropWhile isDigitCh).isEmpty
        else false

/-- JS `t.startsWith(c)` for a single character. -/
def startsWithCh (t : String) (c : Char) : Bool :=
  match t.data with
  | [] => false
  | a :: _ => a = c

/-- JS `t.endsWith(c)` for a single character. -/
def endsWithCh (t : String) (c : Char) : Bool :=
  match t.data.getLast? with
  | none => false
  | some a => a = c

/-- The `isLikelyJson` test of the source, on the trimmed string. -/
def isLikelyJson (t : String) : Bool :=
  (startsWithCh t '\x7b' && endsWithCh t '\x7d')
    || (startsWithCh t '[' && endsWithCh t ']')
    || (startsWithCh t '\"' && endsWithCh t '\"')
    || numericLiteral t.data
    || (["true", "false", "null"].contains t)

/-- The `T | string | Record<string, any>` result of `parseJsonStr`:
a parsed JSON value, the original string, the supplied default, or the
empty-object literal. -/
inductive ParseJsonResult (J : Type u) (T : Type v) where
  | json (value : J)
  | original (value : String)
  | defaulted (value : T)
  | emptyObj
deriving DecidableEq

/-- `parseJsonStr(str?, defaultValue?)`.  `none` for `str` stands for
`null`/`undefined`; the falsy test `!str` holds for `none` and for the
empty string. -/
def parseJsonStr {J : Type u} {T : Type v} (jsonParse : String → Option J)
    (str : Option String) (defaultValue : Option T) : ParseJsonResult J T :=
  match str with
  | none =>
    match defaultValue with
    | some dv => .defaulted dv
    | none => .emptyObj
  | some s =>
    if s = "" then
      match defaultValue with
      | some dv => .defaulted dv
      | none => .emptyObj
    else
      let trimmedStr := jsTrim s
      if isLikelyJson trimmedStr then
        match jsonParse trimmedStr with
        | some v => .json v
        | none =>
          match defaultValue with
          | some dv => .defaulted dv
          | none => .original s
      else
        match defaultValue with
        | some dv => .defaulted dv
        | none => .original s

/-- **C8.** `parseJsonStr` is a total function — no exception escapes:
falsy input returns the default (or the empty object); a string whose
trimmed form does not look like JSON returns the original string (or
the default); a string whose parse fails returns the original string
(or the default); and a parsed value arises only when the trimmed
string looked like JSON and the parse oracle succeeded on it. -/
theorem parseJsonStr_spec {J : Type u} {T : Type v} (jsonParse : String → Option J)
    (defaultValue : Option T) (s : String) :
    (parseJsonStr jsonParse none defaultValue =
        (match defaultValue with | some dv => .defaulted dv | none => .emptyObj)) ∧
      (parseJsonStr jsonParse (some "") defaultValue =
        (match defaultValue with | some dv => .defaulted dv | none => .emptyObj)) ∧
      (s ≠ "" → isLikelyJson (jsTrim s) = false →
        parseJsonStr jsonParse (some s) defaultValue =
          (match defaultValue with | some dv => .defaulted dv | none => .original s)) ∧
      (s ≠ "" → isLikelyJson (jsTrim s) = true → jsonParse (jsTrim s) = none →
        parseJsonStr jsonParse (some s) defaultValue =
          (match defaultValue with | some dv => .defaulted dv | none => .original s)) ∧
      (∀ v, parseJsonStr jsonParse (some s) defaultValue = .json v →
        isLikelyJson (jsTrim s) = true ∧ jsonParse (jsTrim s) = some v) := by
  refine ⟨rfl, by simp [parseJsonStr], ?_, ?_, ?_⟩
  · intro hne hlik
    simp [parseJsonStr, hne, hlik]
  · intro hne hlik hparse
    simp [parseJsonStr, hne, hlik, hparse]
  · intro v heq
    by_cases hne : s = ""
    · subst hne
      simp [parseJsonStr] at heq
      cases defaultValue <;> simp at heq
    · simp only [parseJsonStr, if_neg hne] at heq
      by_cases hlik : isLikelyJson (jsTrim s) = true
      · refine ⟨hlik, ?_⟩
        rw [if_pos hlik] at heq
        cases hp : jsonParse (jsTrim s) with
        | some v2 =>
          rw [hp] at heq
          injection heq with h2
          exact congrArg some h2
        | none =>
          rw [hp] at heq
          cases defaultValue <;> simp at heq
      · exfalso
        rw [if_neg hlik] at heq
        cases defaultValue <;> simp at heq

/-- **C8 witness.** `parseJsonStr("\x7binvalid json\x7d")` looks like JSON
(braces), the parse fails, no default is supplied — so the caller gets
the original string back, not an exception. -/
theorem parseJsonStr_spec_witness :
    parseJsonStr (fun _ => (none : Option Unit)) (some "\x7binvalid json\x7d")
        (none : Option Unit) =
      .original "\x7binvalid json\x7d" :=
  (parseJsonStr_spec (fun _ => (none : Option Unit)) (none : Option Unit)
      "\x7binvalid json\x7d").2.2.2.1 (by decide) (by decide) rfl

/-! ### `deepClone` — object utilities

```ts
export function deepClone<T>(obj: T): T {
  if (obj === null || typeof obj !== 'object') {
    return obj;
  }
  if (obj instanceof Date) {
    return new Date(obj.getTime()) as unknown as T;
  }
  if (obj instanceof RegExp) {
    return new RegExp(obj.source, obj.flags) as unknown as T;
  }
  if (Array.isArray(obj)) {
    return obj.map((item) => deepClone(item)) as unknown as T;
  }
  const cloned: Record<string, any> = {};
  Object.keys(obj as Record<string, any>).forEach((key) => {
    cloned[key] = deepClone((obj as Record<string, any>)[key]);
  });
  return cloned as T;
}
```
Values are trees of primitives, `Date`s, `RegExp`s, arrays and objects
(the enumerable string keys, in order).  Object identity (`!==`) is made
observable by tagging every non-primitive node with an allocation id:
every constructor call (`new Date`, `new RegExp`, `map`, `\x7b\x7d`)
draws a fresh id from an allocation counter, and a real JS value's ids
are all below the current counter. -/

inductive JPrim where
  | jsNull
  | jsUndefined
  | boolean (b : Bool)
  | number (q : ℚ)
  | string (s : String)
deriving DecidableEq

mutual
inductive JVal where
  | prim (p : JPrim)
  | date (ref : ℕ) (time : ℤ)
  | regexp (ref : ℕ) (source flags : String)
  | arr (ref : ℕ) (elems : JList)
  | obj (ref : ℕ) (fields : JFields)
deriving DecidableEq
inductive JList where
  | nil
  | cons (head : JVal) (tail : JList)
deriving DecidableEq
inductive JFields where
  | nil
  | cons (key : String) (value : JVal) (tail : JFields)
deriving DecidableEq
end

mutual
/-- `deepClone`, with the allocation counter threaded through: every
constructed node receives the id drawn when it is built. -/
def deepClone : JVal → ℕ → JVal × ℕ
  | .prim p, counter => (.prim p, counter)
  | .date _ t, counter => (.date counter t, counter + 1)
  | .regexp _ src flags, counter => (.regexp counter src flags, counter + 1)
  | .arr _ elems, counter =>
    match deepCloneList elems counter with
    | (elems2, counter2) => (.arr counter2 elems2, counter2 + 1)
  | .obj _ fields, counter =>
    match deepCloneFields fields counter with
    | (fields2, counter2) => (.obj counter2 fields2, counter2 + 1)
def deepCloneList : JList → ℕ → JList × ℕ
  | .nil, counter => (.nil, counter)
  | .cons a rest, counter =>
    match deepClone a counter with
    | (a2, c2) =>
      match deepCloneList rest c2 with
      | (rest2, c3) => (.cons a2 rest2, c3)
def deepCloneFields : JFields → ℕ → JFields × ℕ
  | .nil, counter => (.nil, counter)
  | .cons k v rest, counter =>
    match deepClone v counter with
    | (v2, c2) =>
      match deepCloneFields rest c2 with
      | (rest2, c3) => (.cons k v2 rest2, c3)
end

mutual
/-- Deep structural equality — JS deep-equal ignores object identity,
so the allocation ids are not compared. -/
def deepEq : JVal → JVal → Bool
  | .prim p, .prim q => decide (p = q)
  | .date _ t, .date _ t2 => decide (t = t2)
  | .regexp _ src flags, .regexp _ src2 flags2 => decide (src = src2) && decide (flags = flags2)
  | .arr _ es, .arr _ es2 => deepEqList es es2
  | .obj _ fs, .obj _ fs2 => deepEqFields fs fs2
  | _, _ => false
def deepEqList : JList → JList → Bool
  | .nil, .nil => true
  | .cons a r, .cons a2 r2 => deepEq a a2 && deepEqList r r2
  | _, _ => false
def deepEqFields : JFields → JFields → Bool
  | .nil, .nil => true
  | .cons k v r, .cons k2 v2 r2 => decide (k = k2) && deepEq v v2 && deepEqFields r r2
  | _, _ => false
end

mutual
theorem deepClone_counter_le : ∀ (v : JVal) (c : ℕ), c ≤ (deepClone v c).2
  | .prim _, c => Nat.le_refl c
  | .date _ _, c => Nat.le_succ c
  | .regexp _ _ _, c => Nat.le_succ c
  | .arr _ es, c => by
    have h := deepCloneList_counter_le es c
    rcases hsplit : deepCloneList es c with ⟨es2, c2⟩
    rw [hsplit] at h
    simp only [deepClone, hsplit]
    exact h.trans (Nat.le_succ c2)
  | .obj _ fs, c => by
    have h := deepCloneFields_counter_le fs c
    rcases hsplit : deepCloneFields fs c with ⟨fs2, c2⟩
    rw [hsplit] at h
    simp only [deepClone, hsplit]
    exact h.trans (Nat.le_succ c2)
theorem deepCloneList_counter_le : ∀ (l : JList) (c : ℕ), c ≤ (deepCloneList l c).2
  | .nil, c => Nat.le_refl c
  | .cons a r, c => by
    have h1 := deepClone_counter_le a c
    rcases s1 : deepClone a c with ⟨a2, c2⟩
    rw [s1] at h1
    have h2 := deepCloneList_counter_le r c2
    rcases s2 : deepCloneList r c2 with ⟨r2, c3⟩
    rw [s2] at h2
    simp only [deepCloneList, s1, s2]
    exact h1.trans h2
theorem deepCloneFields_counter_le : ∀ (l : JFields) (c : ℕ), c ≤ (deepCloneFields l c).2
  | .nil, c => Nat.le_refl c
  | .cons k v r, c => by
    have h1 := deepClone_counter_le v c
    rcases s1 : deepClone v c with ⟨v2, c2⟩
    rw [s1] at h1
    have h2 := deepCloneFields_counter_le r c2
    rcases s2 : deepCloneFields r c2 with ⟨r2, c3⟩
    rw [s2] at h2
    simp only [deepCloneFields, s1, s2]
    exact h1.trans h2
end

mutual
theorem deepEq_deepClone : ∀ (v : JVal) (c : ℕ), deepEq (deepClone v c).1 v = true
  | .prim p, c => by simp [deepClone, deepEq]
  | .date _ t, c => by simp [deepClone, deepEq]
  | .regexp _ src flags, c => by simp [deepClone, deepEq]
  | .arr _ es, c => by
    have h := deepEqList_deepClone es c
    rcases hsplit : deepCloneList es c with ⟨es2, c2⟩
    rw [hsplit] at h
    simpa [deepClone, hsplit, deepEq] using h
  | .obj _ fs, c => by
    have h := deepEqFields_deepClone fs c
    rcases hsplit : deepCloneFields fs c with ⟨fs2, c2⟩
    rw [hsplit] at h
    simpa [deepClone, hsplit, deepEq] using h
theorem deepEqList_deepClone : ∀ (l : JList) (c : ℕ), deepEqList (deepCloneList l c).1 l = true
  | .nil, c => rfl
  | .cons a r, c => by
    have h1 := deepEq_deepClone a c
    rcases s1 : deepClone a c with ⟨a2, c2⟩
    rw [s1] at h1
    have h2 := deepEqList_deepClone r c2
    rcases s2 : deepCloneList r c2 with ⟨r2, c3⟩
    rw [s2] at h2
    simp [deepCloneList, s1, s2, deepEqList, h1, h2]
theorem deepEqFields_deepClone : ∀ (l : JFields) (c : ℕ),
    deepEqFields (deepCloneFields l c).1 l = true
  | .nil, c => rfl
  | .cons k v r, c => by
    have h1 := deepEq_deepClone v c
    rcases s1 : deepClone v c with ⟨v2, c2⟩
    rw [s1] at h1
    have h2 := deepEqFields_deepClone r c2
    rcases s2 : deepCloneFields r c2 with ⟨r2, c3⟩
    rw [s2] at h2
    simp [deepCloneFields, s1, s2, deepEqFields, h1, h2]
end

end SunpmUtils
